import Mathlib

/-!
# Verification of the fhevm-quiz core

Shallow embedding of the three core pieces of the repository:

* the string/bigint codec (`packages/nextjs/utils/helper/encoding.ts`:
  `stringToBigInt`, `bigIntToString`),
* the `FHEZamaQuiz` Solidity contract (write-once encrypted answer per
  address, `submitAnswer` / `hasAnswered` / `getEncryptedAnswer`),
* the client-side hook `useFHEZamaQuiz` (`submitAnswer` orchestration and the
  derived `hasAnswered` flag).

Machine integers are modelled as `Nat`; JS exceptions of the codec are
modelled as `Option` (`none` = throw); Solidity reverts are modelled as
`Except` (an error result leaves the caller with the pre-state, matching the
EVM's all-or-nothing transaction semantics).
-/

/-! ## UTF-8 encoding (model of ethers' `toUtf8Bytes`)

`toUtf8Bytes` emits the standard UTF-8 encoding of the string, one code point
at a time (shifts and masks in the ethers source are rendered here as
division and remainder by the matching powers of two). -/

/-- Standard UTF-8 encoding of one Unicode scalar value (1 to 4 bytes). -/
def utf8EncodeChar (c : Char) : List Nat :=
  let n := c.toNat
  if n < 0x80 then [n]
  else if n < 0x800 then [0xC0 + n / 64, 0x80 + n % 64]
  else if n < 0x10000 then [0xE0 + n / 4096, 0x80 + n / 64 % 64, 0x80 + n % 64]
  else [0xF0 + n / 262144, 0x80 + n / 4096 % 64, 0x80 + n / 64 % 64, 0x80 + n % 64]

/-- Model of ethers' `toUtf8Bytes`: UTF-8 bytes of the whole string. -/
def toUtf8Bytes (s : String) : List Nat :=
  s.data.flatMap utf8EncodeChar

/-- Is `b` a UTF-8 continuation byte (`0b10xxxxxx`)? -/
def isCont (b : Nat) : Bool :=
  0x80 ≤ b && b < 0xC0

/-- One UTF-8 sequence decoded off the front of a byte string: the decoded
code point and the remaining bytes (with a length witness for the decode
loop's termination). `none` on a malformed head: truncated sequence,
stray continuation byte, overlong form, surrogate, or out-of-range value. -/
def utf8DecodeStep :
    (l : List Nat) → Option (Char × {rest : List Nat // rest.length < l.length})
  | [] => none
  | b0 :: rest =>
    if b0 < 0x80 then
      some (Char.ofNat b0, ⟨rest, by simp only [List.length_cons]; omega⟩)
    else if b0 < 0xC0 then
      none
    else if b0 < 0xE0 then
      match rest with
      | b1 :: rest2 =>
        if isCont b1 then
          let n := (b0 - 0xC0) * 64 + (b1 - 0x80)
          if 0x80 ≤ n then
            some (Char.ofNat n, ⟨rest2, by simp only [List.length_cons]; omega⟩)
          else none
        else none
      | [] => none
    else if b0 < 0xF0 then
      match rest with
      | b1 :: b2 :: rest3 =>
        if isCont b1 && isCont b2 then
          let n := (b0 - 0xE0) * 4096 + (b1 - 0x80) * 64 + (b2 - 0x80)
          if 0x800 ≤ n ∧ (n < 0xD800 ∨ 0xE000 ≤ n) then
            some (Char.ofNat n, ⟨rest3, by simp only [List.length_cons]; omega⟩)
          else none
        else none
      | _ => none
    else if b0 < 0xF8 then
      match rest with
      | b1 :: b2 :: b3 :: rest4 =>
        if isCont b1 && isCont b2 && isCont b3 then
          let n := (b0 - 0xF0) * 262144 + (b1 - 0x80) * 4096 +
                   (b2 - 0x80) * 64 + (b3 - 0x80)
          if 0x10000 ≤ n ∧ n < 0x110000 then
            some (Char.ofNat n, ⟨rest4, by simp only [List.length_cons]; omega⟩)
          else none
        else none
      | _ => none
    else none

/-- Strict UTF-8 decoder: repeat `utf8DecodeStep` until the bytes are
exhausted. This models `Buffer.from(hex, "hex").toString("utf8")` on the
inputs the codec claims are about: on valid UTF-8 byte strings Node's
decoder returns exactly this decoding (its replacement-character behaviour
only differs on invalid input, modelled here as `none`). -/
def utf8Decode : List Nat → Option (List Char)
  | [] => some []
  | b0 :: rest =>
    match utf8DecodeStep (b0 :: rest) with
    | none => none
    | some (c, ⟨rest', hlt⟩) => (utf8Decode rest').map fun cs => c :: cs
  termination_by l => l.length
  decreasing_by exact hlt

/-! ## Bytes and big-endian integers

`hexlify(bytes).substring(2)` followed by `BigInt("0x" + hex)` interprets the
byte string as a big-endian unsigned integer, and `bn.toString(16)` padded to
even length followed by `Buffer.from(hex, "hex")` renders an integer back as
its minimal big-endian byte string (`[0]` for `0`). -/

/-- Big-endian value of a byte string: models `BigInt("0x" + hexlify bytes)`. -/
def bytesToNat (bs : List Nat) : Nat :=
  bs.foldl (fun acc b => acc * 256 + b) 0

/-- Minimal big-endian byte string of `n`: models `bn.toString(16)` padded
with one leading `"0"` when of odd length, then decoded with
`Buffer.from(hex, "hex")` — minimal hex digits grouped in pairs are exactly
the minimal byte string (`[0]` for `0`). -/
def natToBytes (n : Nat) : List Nat :=
  if _h : n < 256 then [n]
  else natToBytes (n / 256) ++ [n % 256]
  decreasing_by exact Nat.div_lt_self (by omega) (by omega)

/-! ## The codec (`encoding.ts`) -/

/-- `stringToBigInt` from `encoding.ts`. `BigInt("0x" + hex)` throws a
`SyntaxError` when `hex` is empty (i.e. exactly when the input string is
empty); the throw is modelled as `none`. -/
def stringToBigInt (str : String) : Option Nat :=
  let bytes := toUtf8Bytes str
  if bytes.isEmpty then none else some (bytesToNat bytes)

/-- `bigIntToString` from `encoding.ts`: minimal (even-length-padded) hex of
`bn`, decoded as bytes, reinterpreted as UTF-8 text. `none` models a byte
string that is not valid UTF-8 (where Node would substitute replacement
characters). -/
def bigIntToString (bn : Nat) : Option String :=
  (utf8Decode (natToBytes bn)).map fun cs => ⟨cs⟩

/-! ## The `FHEZamaQuiz` contract

State: `mapping(address => euint32) private _userAnswer` and
`mapping(address => bool) private _hasAnswered`. Solidity mappings default
to the zero value, so an address that never submitted reads as handle `0`
(`euint32` is a `bytes32` handle under the hood, a 256-bit word) and flag
`false`. `FHE.fromExternal(answerEncrypted, proof)` is an external
gateway/coprocessor primitive: the embedding takes its outcome as a
parameter (`none` = proof verification reverts, `some v` = the imported
ciphertext handle). -/

/-- A participant identity (Ethereum address). -/
abbrev Address := Nat

/-- Errors with which `submitAnswer` can revert. -/
inductive SubmitError where
  /-- `require(!_hasAnswered[msg.sender], "Already answered")` -/
  | alreadyAnswered
  /-- `FHE.fromExternal` rejects the proof. -/
  | invalidProof
deriving DecidableEq, Repr

namespace FHEZamaQuiz

/-- Contract storage. -/
structure State where
  /-- `mapping(address => euint32) private _userAnswer` (bytes32 handles). -/
  _userAnswer : Address → Nat
  /-- `mapping(address => bool) private _hasAnswered` -/
  _hasAnswered : Address → Bool

/-- Storage right after deployment: both mappings all-zero. -/
def initialState : State where
  _userAnswer := fun _ => 0
  _hasAnswered := fun _ => false

/-- `submitAnswer(externalEuint32 answerEncrypted, bytes calldata proof)`.
`fromExternal` is the outcome of `FHE.fromExternal(answerEncrypted, proof)`;
an `error` result is a revert: the transaction leaves storage untouched and
the caller keeps the pre-state. -/
def submitAnswer (st : State) (sender : Address) (fromExternal : Option Nat) :
    Except SubmitError State :=
  if st._hasAnswered sender then
    .error .alreadyAnswered
  else
    match fromExternal with
    | none => .error .invalidProof
    | some value =>
      .ok { _userAnswer := fun a => if a = sender then value else st._userAnswer a
            _hasAnswered := fun a => if a = sender then true else st._hasAnswered a }

/-- `hasAnswered(address user) external view returns (bool)` -/
def hasAnswered (st : State) (user : Address) : Bool :=
  st._hasAnswered user

/-- `getEncryptedAnswer(address user) external view returns (euint32)` -/
def getEncryptedAnswer (st : State) (user : Address) : Nat :=
  st._userAnswer user

/-- A `view` call as a transition: it returns the read value together with
the (unchanged) post-call storage. -/
def getEncryptedAnswerCall (st : State) (user : Address) : Nat × State :=
  (st._userAnswer user, st)

/-- Storage `st'` is reachable from `st` by a sequence of committed
transactions. The only mutating entry point of the contract is
`submitAnswer`; a reverted call leaves storage unchanged, so only `.ok`
steps appear. The imported handle produced by `FHE.fromExternal` is a
nonzero 256-bit word (FHE handles are hash-derived `bytes32` values;
the zero word is the mapping's "absent" sentinel). -/
inductive Reachable : State → State → Prop where
  | refl (st : State) : Reachable st st
  | step {st st' st'' : State} {sender : Address} {value : Nat}
      (hr : Reachable st st')
      (hnz : value ≠ 0) (hlt : value < 2 ^ 256)
      (hok : submitAnswer st' sender (some value) = .ok st'') :
      Reachable st st''

/-- Storage reachable from deployment. -/
def ReachableFromInit (st : State) : Prop :=
  Reachable initialState st

/-- The record invariant: a record's flag is set exactly when its handle
slot is nonzero, and every stored handle fits in a 256-bit word. -/
def GoodState (st : State) : Prop :=
  ∀ u, (st._hasAnswered u = true ↔ st._userAnswer u ≠ 0) ∧ st._userAnswer u < 2 ^ 256

end FHEZamaQuiz

/-! ## The client hook `useFHEZamaQuiz`

The hook reads the caller's handle with `getEncryptedAnswer`, derives its
`hasAnswered` flag from that handle alone, and orchestrates
encode → encrypt → submit in its `submitAnswer` callback. -/

/-- `ethers.ZeroHash`: the 32-byte zero hash as a hex string. -/
def ZeroHash : String :=
  "0x0000000000000000000000000000000000000000000000000000000000000000"

/-- One hex digit character (lowercase), as produced by ethers' hex
rendering of a `bytes32` word. -/
def hexChar (d : Nat) : Char :=
  Char.ofNat (if d < 10 then 48 + d else 87 + d)

/-- `k` big-endian hex digit characters of `n` (most significant first). -/
def hexDigits : Nat → Nat → List Char
  | 0, _ => []
  | k + 1, n => hexDigits k (n / 16) ++ [hexChar (n % 16)]

/-- Value of one hex digit character (left inverse of `hexChar`). -/
def hexCharVal (c : Char) : Nat :=
  if 87 ≤ c.toNat then c.toNat - 87 else c.toNat - 48

/-- Big-endian value of a hex digit string (left inverse of `hexDigits`). -/
def hexDigitsVal (l : List Char) : Nat :=
  l.foldl (fun acc c => acc * 16 + hexCharVal c) 0

/-- The hex string under which a `bytes32` word returned by
`getEncryptedAnswer` arrives at the client: `"0x"` followed by 64 hex
digits. -/
def renderBytes32 (n : Nat) : String :=
  ⟨'0' :: 'x' :: hexDigits 64 n⟩

namespace QuizHook

/-- The hook's derived flag, from `useFHEZamaQuiz`:
`Boolean(answerHandle && answerHandle !== ethers.ZeroHash && answerHandle !== "0x" && answerHandle !== "0x0")`.
`none` models `answerHandle === undefined` (read not yet available); an
empty string is falsy in JS, hence the explicit `""` case. -/
def hasAnswered (answerHandle : Option String) : Bool :=
  match answerHandle with
  | none => false
  | some h => !(h == "") && !(h == ZeroHash) && !(h == "0x") && !(h == "0x0")

/-- Outcomes of the asynchronous collaborators the hook's `submitAnswer`
awaits, one field per call site, in call order. -/
structure Env where
  /-- `getEncryptionMethodFor("submitAnswer")`: `none` when no method was
  found, together with the `error` text accompanying it (`none` = the
  ABI entry existed but had no recognised encryption method). -/
  methodError : Option String
  methodFound : Bool
  /-- `await encryptWith(...)` returned a truthy encrypted input. -/
  encryptOk : Bool
  /-- `getContract("write")` returned a contract instance. -/
  contractAvailable : Bool
  /-- `await writeContract.submitAnswer(...)` / `tx.wait()`: `some e` means
  the awaited transaction threw with message `e` (caught by the
  `catch` block); `none` means it succeeded. -/
  txError : Option String

/-- The hook state touched by `submitAnswer`: the `message` and
`isProcessing` React state cells. -/
structure HookState where
  message : String
  isProcessing : Bool
deriving DecidableEq, Repr

/-- The hook's `submitAnswer(answerString)` callback, run to completion.
`if (!answerString || isProcessing) return;` exits before any state update;
every other path ends in the `finally` block resetting `isProcessing` and
leaves the last `setMessage` text in place. -/
def submitAnswer (env : Env) (st : HookState) (answerString : String) :
    HookState :=
  if answerString = "" || st.isProcessing then st
  else
    let msg :=
      if !env.methodFound then
        env.methodError.getD "Encryption method not found"
      else if !env.encryptOk then "Encryption failed"
      else if !env.contractAvailable then "Contract not available"
      else
        match env.txError with
        | some e => "❌ " ++ e
        | none => "✅ Quiz submitted successfully!"
    { message := msg, isProcessing := false }

end QuizHook

/-- The storage after one successful `submitAnswer` by address `1` with
imported handle `5`, starting from deployment (used to instantiate
hypotheses at concrete inputs). -/
def FHEZamaQuiz.stateAfterFirstSubmit : FHEZamaQuiz.State where
  _userAnswer := fun a => if a = 1 then 5 else FHEZamaQuiz.initialState._userAnswer a
  _hasAnswered := fun a => if a = 1 then true else FHEZamaQuiz.initialState._hasAnswered a

namespace FHEZamaQuiz

/-! ## Contract lemmas -/

/-- A successful `submitAnswer` requires a passing `require`, a verified
proof, and produces exactly the one-point update of the sender's record. -/
theorem submitAnswer_ok_elim {st st' : State} {sender : Address}
    {ext : Option Nat} (h : submitAnswer st sender ext = .ok st') :
    st._hasAnswered sender = false ∧
    ∃ value, ext = some value ∧
      st' = { _userAnswer := fun a => if a = sender then value else st._userAnswer a
              _hasAnswered := fun a => if a = sender then true else st._hasAnswered a } := by
  unfold submitAnswer at h
  by_cases hc : st._hasAnswered sender = true
  · rw [if_pos hc] at h
    cases h
  · rw [if_neg hc] at h
    refine ⟨by simpa using hc, ?_⟩
    cases ext with
    | none => cases h
    | some v => exact ⟨v, rfl, (Except.ok.inj h).symm⟩

/-- `_hasAnswered` is monotone along committed transactions, and once it is
set the stored handle never changes again. -/
theorem reachable_hasAnswered_mono {st st' : State} (h : Reachable st st')
    {u : Address} (hu : st._hasAnswered u = true) :
    st'._hasAnswered u = true ∧ st'._userAnswer u = st._userAnswer u := by
  induction h with
  | refl => exact ⟨hu, rfl⟩
  | @step st1 st2 sender v hr hnz hlt hok ih =>
    obtain ⟨ihA, ihH⟩ := ih
    obtain ⟨hreq, w, hw, hst⟩ := submitAnswer_ok_elim hok
    subst hst
    have hne : u ≠ sender := by
      intro he
      rw [he] at ihA
      rw [ihA] at hreq
      cases hreq
    simp only [if_neg hne]
    exact ⟨ihA, ihH⟩

theorem goodState_initial : GoodState initialState := by
  intro u
  exact ⟨by simp [initialState], by simp [initialState]⟩

theorem reachable_goodState {st st' : State} (hg : GoodState st)
    (h : Reachable st st') : GoodState st' := by
  induction h with
  | refl => exact hg
  | @step st1 st2 sender v hr hnz hlt hok ih =>
    obtain ⟨hreq, w, hw, hst⟩ := submitAnswer_ok_elim hok
    cases hw
    subst hst
    intro u
    obtain ⟨ih1, ih2⟩ := ih u
    by_cases he : u = sender
    · subst he
      simp only [if_pos rfl]
      exact ⟨by simp [hnz], hlt⟩
    · simp only [if_neg he]
      exact ⟨ih1, ih2⟩

theorem reachableFromInit_goodState {st : State} (h : ReachableFromInit st) :
    GoodState st :=
  reachable_goodState goodState_initial h

end FHEZamaQuiz

namespace FHEZamaQuiz

/-! ## Claim theorems about the store -/

/-- C1: once `submitAnswer` has succeeded for an address `u`, `hasAnswered u`
stays `true` across every later committed transaction, `u`'s stored handle
never changes again, and every later `submitAnswer` call by `u` reverts with
`"Already answered"` (`alreadyAnswered`) whatever encrypted input and proof
it carries — a revert leaves storage untouched in this embedding, so the
store state is unchanged (first-writer-wins). -/
theorem submitAnswer_first_writer_wins (st st' st'' : State) (u : Address)
    (ext : Option Nat)
    (hok : submitAnswer st u ext = .ok st')
    (hr : Reachable st' st'') :
    hasAnswered st'' u = true ∧
    getEncryptedAnswer st'' u = getEncryptedAnswer st' u ∧
    ∀ ext' : Option Nat, submitAnswer st'' u ext' = .error .alreadyAnswered := by
  obtain ⟨hreq, v, hv, hst⟩ := submitAnswer_ok_elim hok
  have hset : st'._hasAnswered u = true := by
    subst hst
    simp
  obtain ⟨hA, hH⟩ := reachable_hasAnswered_mono hr hset
  refine ⟨hA, hH, fun ext' => ?_⟩
  unfold submitAnswer
  rw [if_pos hA]

/-- C1 witness: submitting for address `1` from deployment, every repeat
attempt (here: one step later, with any of two payload shapes) reverts. -/
theorem submitAnswer_first_writer_wins_witness :
    hasAnswered stateAfterFirstSubmit 1 = true ∧
    getEncryptedAnswer stateAfterFirstSubmit 1 =
      getEncryptedAnswer stateAfterFirstSubmit 1 ∧
    ∀ ext' : Option Nat,
      submitAnswer stateAfterFirstSubmit 1 ext' = .error .alreadyAnswered :=
  submitAnswer_first_writer_wins initialState stateAfterFirstSubmit
    stateAfterFirstSubmit 1 (some 5) rfl (Reachable.refl _)

/-- C4: in every storage reachable from deployment, an address's
`_hasAnswered` flag is `true` exactly when its `_userAnswer` slot holds a
non-absent (nonzero) handle; reads don't mutate storage and every committed
`submitAnswer` preserves the equivalence, which is what reachability
quantifies over. -/
theorem hasAnswered_iff_handle_present (st : State) (u : Address)
    (h : ReachableFromInit st) :
    hasAnswered st u = true ↔ getEncryptedAnswer st u ≠ 0 :=
  (reachableFromInit_goodState h u).1

/-- C4 witness: the equivalence at the deployment state, address `0`. -/
theorem hasAnswered_iff_handle_present_witness :
    hasAnswered initialState 0 = true ↔ getEncryptedAnswer initialState 0 ≠ 0 :=
  hasAnswered_iff_handle_present initialState 0 (Reachable.refl _)

/-- C5: a successful `submitAnswer` by `u` only touches `u`'s own record:
for every other address `w ≠ u`, both `hasAnswered w` and the stored handle
read by `getEncryptedAnswer w` are exactly as before the transaction. -/
theorem submitAnswer_frame (st st' : State) (u w : Address) (ext : Option Nat)
    (hok : submitAnswer st u ext = .ok st') (hne : w ≠ u) :
    hasAnswered st' w = hasAnswered st w ∧
    getEncryptedAnswer st' w = getEncryptedAnswer st w := by
  obtain ⟨hreq, v, hv, hst⟩ := submitAnswer_ok_elim hok
  subst hst
  simp [hasAnswered, getEncryptedAnswer, hne]

/-- C5 witness: address `1` submitting from deployment leaves address `2`'s
record untouched. -/
theorem submitAnswer_frame_witness :
    hasAnswered stateAfterFirstSubmit 2 = hasAnswered initialState 2 ∧
    getEncryptedAnswer stateAfterFirstSubmit 2 =
      getEncryptedAnswer initialState 2 :=
  submitAnswer_frame initialState stateAfterFirstSubmit 1 2 (some 5) rfl
    (by decide)

/-- C6: at deployment, `hasAnswered u` is `false` and `getEncryptedAnswer u`
is the zero sentinel handle for every address `u`; moreover in any reachable
storage an address whose flag is still `false` (it never submitted
successfully) still reads the zero sentinel. -/
theorem initial_state_empty (u : Address) (st : State)
    (h : ReachableFromInit st) :
    hasAnswered initialState u = false ∧
    getEncryptedAnswer initialState u = 0 ∧
    (hasAnswered st u = false → getEncryptedAnswer st u = 0) := by
  refine ⟨rfl, rfl, fun hfalse => ?_⟩
  have hiff := (reachableFromInit_goodState h u).1
  by_contra hnz
  have : st._hasAnswered u = true := hiff.mpr hnz
  rw [hasAnswered] at hfalse
  rw [this] at hfalse
  cases hfalse

/-- C6 witness: at deployment itself, address `0`. -/
theorem initial_state_empty_witness :
    hasAnswered initialState 0 = false ∧
    getEncryptedAnswer initialState 0 = 0 ∧
    (hasAnswered initialState 0 = false → getEncryptedAnswer initialState 0 = 0) :=
  initial_state_empty 0 initialState (Reachable.refl _)

/-- C7: `getEncryptedAnswer` is a pure (`view`) read: a call leaves storage
exactly as it was, and two consecutive calls with no intervening transaction
return the same handle. -/
theorem getEncryptedAnswer_pure_read (st : State) (u : Address) :
    (getEncryptedAnswerCall st u).2 = st ∧
    (getEncryptedAnswerCall (getEncryptedAnswerCall st u).2 u).1 =
      (getEncryptedAnswerCall st u).1 :=
  ⟨rfl, rfl⟩

end FHEZamaQuiz

/-! ## Codec lemmas: bytes and big-endian integers -/

theorem bytesToNat_cons (b : Nat) (bs : List Nat) :
    bytesToNat (b :: bs) = bs.foldl (fun acc x => acc * 256 + x) b := by
  simp [bytesToNat]

theorem foldl_base_le (bs : List Nat) (acc : Nat) :
    acc * 256 ^ bs.length ≤ bs.foldl (fun a x => a * 256 + x) acc := by
  induction bs generalizing acc with
  | nil => simp
  | cons x bs ih =>
    calc acc * 256 ^ (x :: bs).length
        ≤ (acc * 256 + x) * 256 ^ bs.length := by
          rw [List.length_cons, pow_succ]
          nlinarith [Nat.zero_le x, Nat.pos_pow_of_pos bs.length (by omega : 0 < 256)]
    _ ≤ (x :: bs).foldl (fun a x => a * 256 + x) acc := by
          simpa using ih (acc * 256 + x)

theorem bytesToNat_append_singleton (bs : List Nat) (b : Nat) :
    bytesToNat (bs ++ [b]) = bytesToNat bs * 256 + b := by
  simp [bytesToNat, List.foldl_append]

theorem natToBytes_small {n : Nat} (h : n < 256) : natToBytes n = [n] := by
  unfold natToBytes
  rw [dif_pos h]

theorem natToBytes_step {n : Nat} (h : ¬n < 256) :
    natToBytes n = natToBytes (n / 256) ++ [n % 256] := by
  conv_lhs => rw [natToBytes]
  rw [dif_neg h]

/-- Decoding the big-endian value of a byte string whose leading byte is
nonzero recovers exactly that byte string. -/
theorem natToBytes_bytesToNat (b : Nat) (bs : List Nat) (hb : b ≠ 0)
    (hlt : ∀ x ∈ b :: bs, x < 256) :
    natToBytes (bytesToNat (b :: bs)) = b :: bs := by
  induction bs using List.reverseRecOn with
  | nil =>
    rw [show bytesToNat [b] = b by simp [bytesToNat]]
    exact natToBytes_small (hlt b (by simp))
  | append_singleton bs c ih =>
    have hblt : b < 256 := hlt b (by simp)
    have hclt : c < 256 := hlt c (by simp)
    have hbs : ∀ x ∈ b :: bs, x < 256 := by
      intro x hx
      apply hlt
      rcases List.mem_cons.mp hx with h | h
      · simp [h]
      · simp [h]
    have hge : 1 ≤ bytesToNat (b :: bs) := by
      have := foldl_base_le bs b
      rw [bytesToNat_cons]
      have hb1 : 1 ≤ b := by omega
      have : 1 * 256 ^ bs.length ≤ bs.foldl (fun a x => a * 256 + x) b := by
        calc 1 * 256 ^ bs.length ≤ b * 256 ^ bs.length := by
              exact Nat.mul_le_mul_right _ hb1
        _ ≤ _ := foldl_base_le bs b
      have hpow : 1 ≤ 256 ^ bs.length := Nat.one_le_pow _ _ (by omega)
      omega
    rw [show b :: (bs ++ [c]) = (b :: bs) ++ [c] by simp]
    rw [bytesToNat_append_singleton]
    have hnot : ¬(bytesToNat (b :: bs) * 256 + c < 256) := by nlinarith
    rw [natToBytes_step hnot]
    have hdiv : (bytesToNat (b :: bs) * 256 + c) / 256 = bytesToNat (b :: bs) := by
      omega
    have hmod : (bytesToNat (b :: bs) * 256 + c) % 256 = c := by
      omega
    rw [hdiv, hmod, ih hbs]

/-! ## Codec lemmas: UTF-8 round trip -/

theorem utf8Decode_nil : utf8Decode [] = some [] := by
  rw [utf8Decode]


theorem utf8DecodeStep_one (b0 : Nat) (rest : List Nat) (h : b0 < 0x80) :
    utf8DecodeStep (b0 :: rest) =
      some (Char.ofNat b0, ⟨rest, by simp only [List.length_cons]; omega⟩) := by
  simp only [utf8DecodeStep]
  rw [if_pos h]

theorem utf8DecodeStep_two (b0 b1 : Nat) (rest : List Nat)
    (h0 : 0xC0 ≤ b0) (h0' : b0 < 0xE0) (h1 : 0x80 ≤ b1) (h1' : b1 < 0xC0)
    (hmin : 0x80 ≤ (b0 - 0xC0) * 64 + (b1 - 0x80)) :
    utf8DecodeStep (b0 :: b1 :: rest) =
      some (Char.ofNat ((b0 - 0xC0) * 64 + (b1 - 0x80)),
        ⟨rest, by simp only [List.length_cons]; omega⟩) := by
  have hc : isCont b1 = true := by
    simp only [isCont, Bool.and_eq_true, decide_eq_true_eq]
    omega
  simp only [utf8DecodeStep, hc]
  rw [if_neg (by omega), if_neg (by omega), if_pos h0', if_pos trivial,
    if_pos hmin]

theorem utf8DecodeStep_three (b0 b1 b2 : Nat) (rest : List Nat)
    (h0 : 0xE0 ≤ b0) (h0' : b0 < 0xF0)
    (h1 : 0x80 ≤ b1) (h1' : b1 < 0xC0) (h2 : 0x80 ≤ b2) (h2' : b2 < 0xC0)
    (hrange : 0x800 ≤ (b0 - 0xE0) * 4096 + (b1 - 0x80) * 64 + (b2 - 0x80) ∧
      ((b0 - 0xE0) * 4096 + (b1 - 0x80) * 64 + (b2 - 0x80) < 0xD800 ∨
        0xE000 ≤ (b0 - 0xE0) * 4096 + (b1 - 0x80) * 64 + (b2 - 0x80))) :
    utf8DecodeStep (b0 :: b1 :: b2 :: rest) =
      some (Char.ofNat ((b0 - 0xE0) * 4096 + (b1 - 0x80) * 64 + (b2 - 0x80)),
        ⟨rest, by simp only [List.length_cons]; omega⟩) := by
  have hc : (isCont b1 && isCont b2) = true := by
    simp only [isCont, Bool.and_eq_true, decide_eq_true_eq]
    omega
  simp only [utf8DecodeStep, hc]
  rw [if_neg (by omega), if_neg (by omega), if_neg (by omega), if_pos h0',
    if_pos trivial, if_pos hrange]

theorem utf8DecodeStep_four (b0 b1 b2 b3 : Nat) (rest : List Nat)
    (h0 : 0xF0 ≤ b0) (h0' : b0 < 0xF8)
    (h1 : 0x80 ≤ b1) (h1' : b1 < 0xC0) (h2 : 0x80 ≤ b2) (h2' : b2 < 0xC0)
    (h3 : 0x80 ≤ b3) (h3' : b3 < 0xC0)
    (hrange : 0x10000 ≤ (b0 - 0xF0) * 262144 + (b1 - 0x80) * 4096 +
        (b2 - 0x80) * 64 + (b3 - 0x80) ∧
      (b0 - 0xF0) * 262144 + (b1 - 0x80) * 4096 + (b2 - 0x80) * 64 +
        (b3 - 0x80) < 0x110000) :
    utf8DecodeStep (b0 :: b1 :: b2 :: b3 :: rest) =
      some (Char.ofNat ((b0 - 0xF0) * 262144 + (b1 - 0x80) * 4096 +
          (b2 - 0x80) * 64 + (b3 - 0x80)),
        ⟨rest, by simp only [List.length_cons]; omega⟩) := by
  have hc : (isCont b1 && isCont b2 && isCont b3) = true := by
    simp only [isCont, Bool.and_eq_true, decide_eq_true_eq]
    omega
  simp only [utf8DecodeStep, hc]
  rw [if_neg (by omega), if_neg (by omega), if_neg (by omega),
    if_neg (by omega), if_pos h0', if_pos trivial, if_pos hrange]

theorem utf8Decode_cons_step (b0 : Nat) (rest rest' : List Nat) (c : Char)
    (hpf : rest'.length < (b0 :: rest).length)
    (hstep : utf8DecodeStep (b0 :: rest) = some (c, ⟨rest', hpf⟩)) :
    utf8Decode (b0 :: rest) = (utf8Decode rest').map fun cs => c :: cs := by
  rw [utf8Decode, hstep]

theorem utf8EncodeChar_one {c : Char} (h : c.toNat < 0x80) :
    utf8EncodeChar c = [c.toNat] := by
  unfold utf8EncodeChar
  rw [if_pos h]

theorem utf8EncodeChar_two {c : Char} (h : ¬c.toNat < 0x80)
    (h' : c.toNat < 0x800) :
    utf8EncodeChar c = [0xC0 + c.toNat / 64, 0x80 + c.toNat % 64] := by
  unfold utf8EncodeChar
  rw [if_neg h, if_pos h']

theorem utf8EncodeChar_three {c : Char} (h : ¬c.toNat < 0x800)
    (h' : c.toNat < 0x10000) :
    utf8EncodeChar c =
      [0xE0 + c.toNat / 4096, 0x80 + c.toNat / 64 % 64, 0x80 + c.toNat % 64] := by
  unfold utf8EncodeChar
  rw [if_neg (by omega), if_neg h, if_pos h']

theorem utf8EncodeChar_four {c : Char} (h : ¬c.toNat < 0x10000) :
    utf8EncodeChar c =
      [0xF0 + c.toNat / 262144, 0x80 + c.toNat / 4096 % 64,
        0x80 + c.toNat / 64 % 64, 0x80 + c.toNat % 64] := by
  unfold utf8EncodeChar
  rw [if_neg (by omega), if_neg (by omega), if_neg h]

theorem utf8EncodeChar_lt (c : Char) : ∀ b ∈ utf8EncodeChar c, b < 256 := by
  have hvalid : Nat.isValidChar c.toNat := c.valid
  have hub : c.toNat < 0x110000 := by
    rcases hvalid with h | ⟨h1, h2⟩ <;> omega
  intro b hb
  by_cases h1 : c.toNat < 0x80
  · rw [utf8EncodeChar_one h1] at hb
    simp only [List.mem_singleton] at hb
    omega
  · by_cases h2 : c.toNat < 0x800
    · rw [utf8EncodeChar_two h1 h2] at hb
      simp only [List.mem_cons, List.mem_singleton, List.not_mem_nil,
        or_false] at hb
      rcases hb with hb | hb <;> omega
    · by_cases h3 : c.toNat < 0x10000
      · rw [utf8EncodeChar_three h2 h3] at hb
        simp only [List.mem_cons, List.mem_singleton, List.not_mem_nil,
          or_false] at hb
        rcases hb with hb | hb | hb <;> omega
      · rw [utf8EncodeChar_four h3] at hb
        simp only [List.mem_cons, List.mem_singleton, List.not_mem_nil,
          or_false] at hb
        rcases hb with hb | hb | hb | hb <;> omega

theorem utf8EncodeChar_ne_nil (c : Char) : utf8EncodeChar c ≠ [] := by
  by_cases h1 : c.toNat < 0x80
  · rw [utf8EncodeChar_one h1]
    simp
  · by_cases h2 : c.toNat < 0x800
    · rw [utf8EncodeChar_two h1 h2]
      simp
    · by_cases h3 : c.toNat < 0x10000
      · rw [utf8EncodeChar_three h2 h3]
        simp
      · rw [utf8EncodeChar_four h3]
        simp

theorem toUtf8Bytes_lt (s : String) : ∀ b ∈ toUtf8Bytes s, b < 256 := by
  intro b hb
  rw [toUtf8Bytes] at hb
  obtain ⟨c, _, hbc⟩ := List.mem_flatMap.mp hb
  exact utf8EncodeChar_lt c b hbc

theorem toUtf8Bytes_eq_nil (s : String) : toUtf8Bytes s = [] ↔ s = "" := by
  constructor
  · intro h
    cases s with
    | mk data =>
      cases hd : data with
      | nil => subst hd; decide
      | cons c cs =>
        exfalso
        rw [toUtf8Bytes] at h
        simp only at h
        rw [hd, List.flatMap_cons] at h
        exact utf8EncodeChar_ne_nil c (List.append_eq_nil.mp h).1
  · intro h
    subst h
    rfl

/-- Decoding the UTF-8 bytes of one character off the front of a byte string
yields that character followed by the decoding of the remaining bytes. -/
theorem utf8Decode_encodeChar (c : Char) (rest : List Nat) :
    utf8Decode (utf8EncodeChar c ++ rest) =
      (utf8Decode rest).map fun cs => c :: cs := by
  have hvalid : Nat.isValidChar c.toNat := c.valid
  have hofNat : Char.ofNat c.toNat = c := Char.ofNat_toNat c
  have hub : c.toNat < 0x110000 := by
    rcases hvalid with h | ⟨h1, h2⟩ <;> omega
  by_cases h1 : c.toNat < 0x80
  · rw [utf8EncodeChar_one h1]
    show utf8Decode (c.toNat :: rest) = _
    rw [utf8Decode_cons_step c.toNat rest rest (Char.ofNat c.toNat)
      (by simp only [List.length_cons]; omega)
      (utf8DecodeStep_one c.toNat rest h1), hofNat]
  · by_cases h2 : c.toNat < 0x800
    · rw [utf8EncodeChar_two h1 h2]
      show utf8Decode
        ((0xC0 + c.toNat / 64) :: (0x80 + c.toNat % 64) :: rest) = _
      have hrecon :
          (0xC0 + c.toNat / 64 - 0xC0) * 64 + (0x80 + c.toNat % 64 - 0x80) =
            c.toNat := by
        omega
      rw [utf8Decode_cons_step (0xC0 + c.toNat / 64)
        ((0x80 + c.toNat % 64) :: rest) rest _
        (by simp only [List.length_cons]; omega)
        (utf8DecodeStep_two (0xC0 + c.toNat / 64) (0x80 + c.toNat % 64) rest
          (by omega) (by omega) (by omega) (by omega) (by omega)),
        hrecon, hofNat]
    · by_cases h3 : c.toNat < 0x10000
      · rw [utf8EncodeChar_three h2 h3]
        show utf8Decode ((0xE0 + c.toNat / 4096) :: (0x80 + c.toNat / 64 % 64) ::
          (0x80 + c.toNat % 64) :: rest) = _
        have hrecon :
            (0xE0 + c.toNat / 4096 - 0xE0) * 4096 +
              (0x80 + c.toNat / 64 % 64 - 0x80) * 64 +
              (0x80 + c.toNat % 64 - 0x80) = c.toNat := by
          omega
        rw [utf8Decode_cons_step (0xE0 + c.toNat / 4096)
          ((0x80 + c.toNat / 64 % 64) :: (0x80 + c.toNat % 64) :: rest) rest _
          (by simp only [List.length_cons]; omega)
          (utf8DecodeStep_three (0xE0 + c.toNat / 4096)
            (0x80 + c.toNat / 64 % 64) (0x80 + c.toNat % 64) rest
            (by omega) (by omega) (by omega) (by omega) (by omega) (by omega)
            (by rw [hrecon]; exact ⟨by omega, by rcases hvalid with h | h <;> omega⟩)),
          hrecon, hofNat]
      · rw [utf8EncodeChar_four h3]
        show utf8Decode ((0xF0 + c.toNat / 262144) ::
          (0x80 + c.toNat / 4096 % 64) :: (0x80 + c.toNat / 64 % 64) ::
          (0x80 + c.toNat % 64) :: rest) = _
        have hrecon :
            (0xF0 + c.toNat / 262144 - 0xF0) * 262144 +
              (0x80 + c.toNat / 4096 % 64 - 0x80) * 4096 +
              (0x80 + c.toNat / 64 % 64 - 0x80) * 64 +
              (0x80 + c.toNat % 64 - 0x80) = c.toNat := by
          omega
        rw [utf8Decode_cons_step (0xF0 + c.toNat / 262144)
          ((0x80 + c.toNat / 4096 % 64) :: (0x80 + c.toNat / 64 % 64) ::
            (0x80 + c.toNat % 64) :: rest) rest _
          (by simp only [List.length_cons]; omega)
          (utf8DecodeStep_four (0xF0 + c.toNat / 262144)
            (0x80 + c.toNat / 4096 % 64) (0x80 + c.toNat / 64 % 64)
            (0x80 + c.toNat % 64) rest
            (by omega) (by omega) (by omega) (by omega) (by omega) (by omega)
            (by omega) (by omega)
            (by rw [hrecon]; exact ⟨by omega, by omega⟩)),
          hrecon, hofNat]

/-- Decoding the UTF-8 encoding of any character list recovers it. -/
theorem utf8Decode_flatMap (l : List Char) :
    utf8Decode (l.flatMap utf8EncodeChar) = some l := by
  induction l with
  | nil => exact utf8Decode_nil
  | cons c l ih =>
    rw [List.flatMap_cons, utf8Decode_encodeChar, ih]
    rfl

/-! ## Claim theorems about the codec -/

/-- C3 counterexample: the text `"\x00A"` consists of 2 single-byte
characters (so 2 bytes, within the 1–4 single-byte-character family the
claim quantifies over), yet `decode(encode("\x00A"))` is `"A"`, not
`"\x00A"`: `BigInt` drops the leading zero byte and the minimal-hex
reconstruction cannot restore it. -/
theorem roundtrip_fails_on_leading_zero :
    (stringToBigInt "\x00A").bind bigIntToString = some "A" ∧
    some "A" ≠ some "\x00A" ∧
    (toUtf8Bytes "\x00A").length = 2 := by
  have h1 : stringToBigInt "\x00A" = some 65 := rfl
  have h2 : bigIntToString 65 = some "A" := by
    rw [bigIntToString, natToBytes_small (by omega),
      utf8Decode_cons_step 65 [] [] (Char.ofNat 65)
        (by simp only [List.length_cons]; omega)
        (utf8DecodeStep_one 65 [] (by omega)),
      utf8Decode_nil]
    rfl
  refine ⟨?_, by decide, by decide⟩
  rw [h1]
  show bigIntToString 65 = some "A"
  exact h2

/-- C3 (amended): for every text `t` whose UTF-8 byte length times 8 is at
most `W = 32` and whose first byte is nonzero, `decode(encode(t)) == t`;
the instantiation to all texts of 1–4 single-byte characters holds only for
those whose first character is not `U+0000` (a leading zero byte is dropped,
see the counterexample). -/
theorem decode_encode_roundtrip (s : String) (b0 : Nat) (bs : List Nat)
    (hbytes : toUtf8Bytes s = b0 :: bs) (hb0 : b0 ≠ 0)
    (hlen : (toUtf8Bytes s).length * 8 ≤ 32) :
    (stringToBigInt s).bind bigIntToString = some s := by
  have hlt : ∀ x ∈ b0 :: bs, x < 256 := by
    rw [← hbytes]
    exact toUtf8Bytes_lt s
  have h1 : stringToBigInt s = some (bytesToNat (b0 :: bs)) := by
    unfold stringToBigInt
    rw [hbytes]
    rfl
  rw [h1]
  show bigIntToString (bytesToNat (b0 :: bs)) = some s
  rw [bigIntToString, natToBytes_bytesToNat b0 bs hb0 hlt, ← hbytes,
    toUtf8Bytes, utf8Decode_flatMap]
  rfl

/-- C3 witness: the round trip at `"ABC"` (3 ASCII bytes, leading byte
`0x41 ≠ 0`). -/
theorem decode_encode_roundtrip_witness :
    (stringToBigInt "ABC").bind bigIntToString = some "ABC" :=
  decode_encode_roundtrip "ABC" 65 [66, 67] (by decide) (by decide) (by decide)

/-- C2 counterexample: `"ABCDE"` has UTF-8 byte length 5, so
`byteLength × 8 = 40 > W = 32`, yet `stringToBigInt` does not fail with any
`EncodingTooLong` error — it succeeds and returns the packed 40-bit
integer `0x4142434445`. No length check exists anywhere in the codec or in
the hook's submit path. -/
theorem encode_overlong_succeeds_counterexample :
    (toUtf8Bytes "ABCDE").length * 8 > 32 ∧
    stringToBigInt "ABCDE" = some 280284578885 := by
  exact ⟨by decide, rfl⟩

/-- C2 (amended): for every text whose UTF-8 byte length times 8 exceeds
`W = 32`, `Codec.encode` does **not** fail: it returns the packed big-endian
integer of all the bytes. The code has no `EncodingTooLong` check, so an
over-long value is not rejected locally. -/
theorem encode_overlong_succeeds (s : String)
    (h : (toUtf8Bytes s).length * 8 > 32) :
    stringToBigInt s = some (bytesToNat (toUtf8Bytes s)) := by
  have hne : ¬(toUtf8Bytes s).isEmpty = true := by
    intro hempty
    rw [List.isEmpty_iff] at hempty
    rw [hempty] at h
    simp at h
  unfold stringToBigInt
  rw [if_neg hne]

/-- C2 witness: the amended statement at `"ABCDE"`. -/
theorem encode_overlong_succeeds_witness :
    stringToBigInt "ABCDE" = some (bytesToNat (toUtf8Bytes "ABCDE")) :=
  encode_overlong_succeeds "ABCDE" (by decide)

/-- C9: `stringToBigInt` applied to the empty string throws
(`BigInt("0x")` is a `SyntaxError`, modelled as `none`) rather than
returning a value or a typed codec error; every nonempty input yields a
value; and the hook's `submitAnswer` guard (`!answerString`) returns before
ever calling the codec on an empty string, so the only caller never hits
the throw. -/
theorem encode_empty_throws :
    stringToBigInt "" = none ∧
    (∀ s : String, s ≠ "" → (stringToBigInt s).isSome = true) ∧
    ∀ (env : QuizHook.Env) (st : QuizHook.HookState),
      QuizHook.submitAnswer env st "" = st := by
  refine ⟨rfl, ?_, ?_⟩
  · intro s hs
    have hne : ¬(toUtf8Bytes s).isEmpty = true := by
      intro hempty
      rw [List.isEmpty_iff] at hempty
      exact hs ((toUtf8Bytes_eq_nil s).mp hempty)
    unfold stringToBigInt
    rw [if_neg hne]
    rfl
  · intro env st
    unfold QuizHook.submitAnswer
    rw [if_pos (by simp)]

/-- C9 witness: a nonempty input (`"A"`) gets a value, and the guard at the
empty string leaves a concrete hook state untouched. -/
theorem encode_empty_throws_witness :
    (stringToBigInt "A").isSome = true ∧
    QuizHook.submitAnswer ⟨none, true, true, true, none⟩ ⟨"m", false⟩ "" =
      ⟨"m", false⟩ :=
  ⟨encode_empty_throws.2.1 "A" (by decide),
    encode_empty_throws.2.2 ⟨none, true, true, true, none⟩ ⟨"m", false⟩⟩

/-! ## Claim theorems about the hook's submit guard -/

/-- C8 counterexample: calling the hook's `submitAnswer` with empty text
leaves the hook state exactly as it was — in particular the retained
message is still the empty string, so the rejection records no `EmptyInput`
(nor any other) failure reason for display; the early return
`if (!answerString || isProcessing) return;` is silent. -/
theorem submit_empty_rejection_is_silent :
    QuizHook.submitAnswer ⟨none, true, true, true, none⟩ ⟨"", false⟩ "" =
      ⟨"", false⟩ ∧
    (QuizHook.submitAnswer ⟨none, true, true, true, none⟩
      ⟨"", false⟩ "").message = "" := by
  constructor <;> rfl

/-- C8 (amended): the orchestrator's `submitAnswer(text)` rejects (returns
early) when `text` is empty or a submission is already in flight
(re-entrancy guard: only one in-flight submission per hook instance), but
the rejection is silent: the hook state — including the last displayed
message — is left completely unchanged, and no `EmptyInput` failure reason
is recorded. -/
theorem submit_guard_returns_silently (env : QuizHook.Env)
    (st : QuizHook.HookState) (t : String)
    (h : t = "" ∨ st.isProcessing = true) :
    QuizHook.submitAnswer env st t = st := by
  unfold QuizHook.submitAnswer
  rcases h with h | h
  · rw [if_pos (by simp [h])]
  · rw [if_pos (by simp [h])]

/-- C8 witness: the in-flight guard at a concrete state. -/
theorem submit_guard_returns_silently_witness :
    QuizHook.submitAnswer ⟨none, true, true, true, none⟩ ⟨"x", true⟩
      "hello" = ⟨"x", true⟩ :=
  submit_guard_returns_silently ⟨none, true, true, true, none⟩ ⟨"x", true⟩
    "hello" (Or.inr rfl)

/-! ## Lemmas about the client's hex-string handle check -/

theorem hexDigits_length (k n : Nat) : (hexDigits k n).length = k := by
  induction k generalizing n with
  | zero => rfl
  | succ k ih =>
    rw [hexDigits]
    simp [ih]

theorem hexCharVal_hexChar : ∀ d, d < 16 → hexCharVal (hexChar d) = d := by
  decide

theorem hexDigitsVal_append (l : List Char) (c : Char) :
    hexDigitsVal (l ++ [c]) = hexDigitsVal l * 16 + hexCharVal c := by
  simp [hexDigitsVal, List.foldl_append]

theorem hexDigitsVal_hexDigits (k n : Nat) (h : n < 16 ^ k) :
    hexDigitsVal (hexDigits k n) = n := by
  induction k generalizing n with
  | zero =>
    have hn : n = 0 := by simpa using h
    subst hn
    rfl
  | succ k ih =>
    have hdiv : n / 16 < 16 ^ k := by
      rw [Nat.div_lt_iff_lt_mul (by omega : 0 < 16)]
      rw [pow_succ] at h
      exact h
    rw [hexDigits, hexDigitsVal_append, ih (n / 16) hdiv,
      hexCharVal_hexChar (n % 16) (Nat.mod_lt _ (by omega))]
    omega

theorem renderBytes32_length (n : Nat) : (renderBytes32 n).length = 66 := by
  show ('0' :: 'x' :: hexDigits 64 n).length = 66
  simp [hexDigits_length]

theorem hexDigits_zero (k : Nat) : hexDigits k 0 = List.replicate k '0' := by
  induction k with
  | zero => rfl
  | succ k ih =>
    rw [hexDigits]
    rw [show (0 : Nat) / 16 = 0 from rfl, show (0 : Nat) % 16 = 0 from rfl]
    rw [ih, show hexChar 0 = '0' from rfl, List.replicate_succ']

set_option maxHeartbeats 1000000 in
theorem renderBytes32_zero : renderBytes32 0 = ZeroHash := by
  rw [renderBytes32, hexDigits_zero]
  decide

theorem renderBytes32_ne_ZeroHash (n : Nat) (hlt : n < 2 ^ 256)
    (hnz : n ≠ 0) : renderBytes32 n ≠ ZeroHash := by
  intro heq
  rw [← renderBytes32_zero] at heq
  have hdata : ('0' :: 'x' :: hexDigits 64 n) =
      ('0' :: 'x' :: hexDigits 64 0) := congrArg String.data heq
  have hdigits : hexDigits 64 n = hexDigits 64 0 := by
    simp only [List.cons.injEq] at hdata
    exact hdata.2.2
  have hval := congrArg hexDigitsVal hdigits
  have h16 : (16 : Nat) ^ 64 = 2 ^ 256 := by norm_num
  rw [hexDigitsVal_hexDigits 64 n (by omega),
    hexDigitsVal_hexDigits 64 0 (by positivity)] at hval
  exact hnz hval

set_option maxHeartbeats 1000000 in
/-- C10: the hook derives its `hasAnswered` flag from the handle alone
(`answerHandle`, the hex rendering of `getEncryptedAnswer` for the
connected account, truthy and different from `ethers.ZeroHash`, `"0x"` and
`"0x0"`), without ever calling the contract's `hasAnswered` view — and on
every storage reachable from deployment this derived flag coincides with
the contract's `hasAnswered`, thanks to the invariant that a record's
handle is set (nonzero) exactly when its flag is. -/
theorem client_hasAnswered_agrees (st : FHEZamaQuiz.State) (u : Address)
    (h : FHEZamaQuiz.ReachableFromInit st) :
    QuizHook.hasAnswered
        (some (renderBytes32 (FHEZamaQuiz.getEncryptedAnswer st u))) =
      FHEZamaQuiz.hasAnswered st u := by
  obtain ⟨hiff, hlt⟩ := FHEZamaQuiz.reachableFromInit_goodState h u
  unfold FHEZamaQuiz.getEncryptedAnswer FHEZamaQuiz.hasAnswered
  by_cases hans : st._hasAnswered u = true
  · rw [hans]
    have hnz : st._userAnswer u ≠ 0 := hiff.mp hans
    have h1 : renderBytes32 (st._userAnswer u) ≠ "" := by
      intro he
      have := congrArg String.length he
      rw [renderBytes32_length] at this
      exact absurd this (by decide)
    have h2 : renderBytes32 (st._userAnswer u) ≠ ZeroHash :=
      renderBytes32_ne_ZeroHash _ hlt hnz
    have h3 : renderBytes32 (st._userAnswer u) ≠ "0x" := by
      intro he
      have := congrArg String.length he
      rw [renderBytes32_length] at this
      exact absurd this (by decide)
    have h4 : renderBytes32 (st._userAnswer u) ≠ "0x0" := by
      intro he
      have := congrArg String.length he
      rw [renderBytes32_length] at this
      exact absurd this (by decide)
    simp [QuizHook.hasAnswered, h1, h2, h3, h4]
  · have hb : st._hasAnswered u = false := by simpa using hans
    rw [hb]
    have hz : st._userAnswer u = 0 := by
      by_contra hnz
      rw [hiff.mpr hnz] at hb
      cases hb
    rw [hz, renderBytes32_zero]
    decide

/-- C10 witness: at deployment, for address `0`, both flags are `false`. -/
theorem client_hasAnswered_agrees_witness :
    QuizHook.hasAnswered
        (some (renderBytes32
          (FHEZamaQuiz.getEncryptedAnswer FHEZamaQuiz.initialState 0))) =
      FHEZamaQuiz.hasAnswered FHEZamaQuiz.initialState 0 :=
  client_hasAnswered_agrees FHEZamaQuiz.initialState 0
    (FHEZamaQuiz.Reachable.refl _)
